import Mathlib

/-!
Verification of the training/inference orchestration engine of the
deeplearning repository (processor/model_process.py, utils/torch_utils.py,
utils/os_lib.py) against its natural-language specification.

The python code is shallowly embedded: loss scalars become an inductive
value type with explicit NaN/Inf markers over exact rationals, the mutable
counters dict becomes an insertion-ordered association list, and each hook
becomes a pure state-passing function translated line by line from the
source.
-/

namespace ModelProc

attribute [local semireducible] Rat.add Rat.sub Rat.mul Rat.inv

/-- Shallow model of a python float value: exact rationals plus the
IEEE special values NaN, +inf and -inf that `np.isnan` / `np.isinf`
test for in `ModelHooks._check_train`. -/
inductive FVal where
  | nan : FVal
  | inf : FVal
  | ninf : FVal
  | fin : ℚ → FVal
deriving DecidableEq

/-- Addition of float values (used by the running `check_loss.*` sums in
`on_train_step_end`): NaN propagates, opposite infinities give NaN. -/
def FVal.add : FVal → FVal → FVal
  | .nan, _ => .nan
  | _, .nan => .nan
  | .inf, .ninf => .nan
  | .ninf, .inf => .nan
  | .inf, _ => .inf
  | _, .inf => .inf
  | .ninf, _ => .ninf
  | _, .ninf => .ninf
  | .fin a, .fin b => .fin (a + b)

/-- Division of float values (used for the reported mean losses).  The
source only divides by the positive sample count `check_nums`; the
remaining cases follow the IEEE conventions. -/
def FVal.div : FVal → FVal → FVal
  | .nan, _ => .nan
  | _, .nan => .nan
  | .inf, .inf => .nan
  | .inf, .ninf => .nan
  | .ninf, .inf => .nan
  | .ninf, .ninf => .nan
  | .inf, .fin b => if 0 ≤ b then .inf else .ninf
  | .ninf, .fin b => if 0 ≤ b then .ninf else .inf
  | .fin _, .inf => .fin 0
  | .fin _, .ninf => .fin 0
  | .fin a, .fin b => .fin (a / b)

/-- `np.isnan`. -/
def FVal.isnan : FVal → Bool
  | .nan => true
  | _ => false

/-- `np.isinf`. -/
def FVal.isinf : FVal → Bool
  | .inf => true
  | .ninf => true
  | _ => false

/-! ## Python dict model

Insertion-ordered association lists with the update/lookup semantics of
python dicts (assignment to an existing key keeps its position, a new key
is appended at the end). -/

/-- Dict lookup `d.get(k)`. -/
def dictFind {α : Type} (d : List (String × α)) (k : String) : Option α :=
  (d.find? (fun kv => kv.1 == k)).map (fun kv => kv.2)

/-- Dict assignment `d[k] = v`. -/
def dictSet {α : Type} : List (String × α) → String → α → List (String × α)
  | [], k, v => [(k, v)]
  | kv :: rest, k, v => if kv.1 = k then (k, v) :: rest else kv :: dictSet rest k v

/-- Dict `d.setdefault(k, v)`. -/
def dictSetdefault {α : Type} (d : List (String × α)) (k : String) (v : α) :
    List (String × α) :=
  if (dictFind d k).isSome then d else d ++ [(k, v)]

/-- Dict `d.get(k, default)`. -/
def dictGetD {α : Type} (d : List (String × α)) (k : String) (v : α) : α :=
  (dictFind d k).getD v

/-- The mutable `self.counters` mapping of `ModelHooks`: names to numeric
values (integers are embedded as finite rationals). -/
abbrev Counters : Type := List (String × FVal)

/-- `self.counters[k] += v` (the key is guaranteed present in the source
by the `setdefault` calls of `on_train_start`; an absent key defaults
to `0` as in `counters.get(n, 0)`). -/
def cincr (c : Counters) (k : String) (v : FVal) : Counters :=
  dictSet c k ((dictGetD c k (.fin 0)).add v)

/-! ## Integer-counter projection of the train step (C1, C2)

`TrainSim` carries exactly the integer counters that
`on_backward` / `on_train_step_end` / `on_train_epoch_end` read and
write, plus one instrumentation field `optimSteps` counting how many
times `ModelHooks._backward` (the call that runs `optimizer.step`) has
executed. -/

structure TrainSim where
  totalNums : ℕ
  totalSteps : ℕ
  perEpochNums : ℕ
  checkNums : ℕ
  epoch : ℕ
  optimSteps : ℕ
deriving DecidableEq

/-- A fresh run: `on_train_start` setdefaults every counter to `0`. -/
def TrainSim.init : TrainSim := ⟨0, 0, 0, 0, 0, 0⟩

/-- `ModelHooks._backward`: runs `optimizer.step` (and
`optimizer.zero_grad`); observed here as one optimizer-step event. -/
def backwardStep (s : TrainSim) : TrainSim :=
  { s with optimSteps := s.optimSteps + 1 }

/-- `ModelHooks.on_backward`: with a truthy `accumulate` the optimizer
step only fires when `counters['total_nums'] % accumulate < batch_size`;
`accumulate = 0` models a falsy (`None`) argument, which fires
unconditionally.  Note `total_nums` is read before `on_train_step_end`
increments it. -/
def on_backward (accumulate batchSize : ℕ) (s : TrainSim) : TrainSim :=
  if accumulate ≠ 0 then
    if s.totalNums % accumulate < batchSize then backwardStep s else s
  else backwardStep s

/-- The counter updates of `ModelHooks.on_train_step_end`:
`total_nums`, `per_epoch_nums` and `check_nums` grow by `len(rets)` and
`total_steps` grows by `1`, unconditionally. -/
def on_train_step_end (retsLen : ℕ) (s : TrainSim) : TrainSim :=
  { s with
    totalNums := s.totalNums + retsLen
    totalSteps := s.totalSteps + 1
    perEpochNums := s.perEpochNums + retsLen
    checkNums := s.checkNums + retsLen }

/-- `ModelHooks.on_train_epoch_end`: `counters['epoch'] += 1`. -/
def on_train_epoch_end (s : TrainSim) : TrainSim :=
  { s with epoch := s.epoch + 1 }

/-- One batch of the inner loop of `ModelHooks.on_train`:
`on_backward` runs before `on_train_step_end`. -/
def trainBatch (accumulate batchSize : ℕ) (s : TrainSim) : TrainSim :=
  on_train_step_end batchSize (on_backward accumulate batchSize s)

/-- `n` uniform batches of size `batchSize` from a fresh run. -/
def runBatches (accumulate batchSize : ℕ) : ℕ → TrainSim
  | 0 => TrainSim.init
  | n + 1 => trainBatch accumulate batchSize (runBatches accumulate batchSize n)

/-! ### Counter evolution lemmas for the training loop -/

theorem on_backward_fields (a b : ℕ) (s : TrainSim) :
    (on_backward a b s).totalNums = s.totalNums ∧
    (on_backward a b s).totalSteps = s.totalSteps ∧
    (on_backward a b s).epoch = s.epoch := by
  unfold on_backward backwardStep
  by_cases h : a ≠ 0
  · by_cases h2 : s.totalNums % a < b <;> simp [h, h2]
  · simp [h]

theorem trainBatch_totalSteps (a b : ℕ) (s : TrainSim) :
    (trainBatch a b s).totalSteps = s.totalSteps + 1 := by
  unfold trainBatch on_train_step_end
  simp [(on_backward_fields a b s).2.1]

theorem runBatches_totalNums (a b n : ℕ) :
    (runBatches a b n).totalNums = n * b := by
  induction n with
  | zero => simp [runBatches, TrainSim.init]
  | succ n ih =>
    show (trainBatch a b (runBatches a b n)).totalNums = (n + 1) * b
    unfold trainBatch on_train_step_end
    simp [(on_backward_fields a b (runBatches a b n)).1, ih]
    ring

theorem runBatches_totalSteps (a b n : ℕ) :
    (runBatches a b n).totalSteps = n := by
  induction n with
  | zero => rfl
  | succ n ih =>
    show (trainBatch a b (runBatches a b n)).totalSteps = n + 1
    rw [trainBatch_totalSteps, ih]

theorem trainBatch_optimSteps_fire (a b : ℕ) (s : TrainSim) (ha : a ≠ 0)
    (h : s.totalNums % a < b) :
    (trainBatch a b s).optimSteps = s.optimSteps + 1 := by
  unfold trainBatch on_train_step_end on_backward backwardStep
  simp [ha, h]

theorem trainBatch_optimSteps_nofire (a b : ℕ) (s : TrainSim) (ha : a ≠ 0)
    (h : ¬ s.totalNums % a < b) :
    (trainBatch a b s).optimSteps = s.optimSteps := by
  unfold trainBatch on_train_step_end on_backward backwardStep
  simp [ha, h]

/-- Arithmetic core: removing one batch of `b` samples from a sample
count of the form `W * q + r` lowers the floor quotient by one exactly
when the old remainder is below `b`. -/
theorem div_pred_of_mod_lt (W q r b : ℕ) (hW : 0 < W) (hr : r < W)
    (hrb : r < b) (hbW : b ≤ W) (hq : 0 < q) :
    (W * q + r - b) / W = q - 1 := by
  have hsplit : W * q = W * (q - 1) + W := by
    have h1 : q = (q - 1) + 1 := by omega
    calc W * q = W * ((q - 1) + 1) := by rw [← h1]
    _ = W * (q - 1) + W := by ring
  have h2 : W * q + r - b = W * (q - 1) + (W + r - b) := by omega
  rw [h2, Nat.mul_add_div hW, Nat.div_eq_of_lt (by omega), Nat.add_zero]

theorem div_same_of_mod_ge (W q r b : ℕ) (hW : 0 < W) (hr : r < W)
    (hrb : b ≤ r) :
    (W * q + r - b) / W = q := by
  have h1 : W * q + r - b = W * q + (r - b) := by omega
  rw [h1, Nat.mul_add_div hW, Nat.div_eq_of_lt (by omega), Nat.add_zero]

theorem div_sub_batch (b W q r : ℕ) (hb : 0 < b) (hbW : b ≤ W) (hr : r < W)
    (hx : b ≤ W * q + r) :
    (W * q + r - b) / W + (if (W * q + r) % W < b then 1 else 0) =
      (W * q + r) / W := by
  have hW : 0 < W := lt_of_lt_of_le hb hbW
  have hmodr : (W * q + r) % W = r := by
    rw [Nat.mul_add_mod, Nat.mod_eq_of_lt hr]
  have hdivq : (W * q + r) / W = q := by
    rw [Nat.mul_add_div hW, Nat.div_eq_of_lt hr, Nat.add_zero]
  rw [hmodr, hdivq]
  by_cases h : r < b
  · rw [if_pos h]
    have hq : 0 < q := by
      rcases Nat.eq_zero_or_pos q with rfl | hq
      · simp only [Nat.mul_zero, Nat.zero_add] at hx
        omega
      · exact hq
    rw [div_pred_of_mod_lt W q r b hW hr h hbW hq]
    omega
  · rw [if_neg h, div_same_of_mod_ge W q r b hW hr (le_of_not_lt h)]
    omega

theorem div_succ_batch (b W n : ℕ) (hb : 0 < b) (hbW : b ≤ W) :
    n * b / W + (if ((n + 1) * b) % W < b then 1 else 0) = (n + 1) * b / W := by
  have hW : 0 < W := lt_of_lt_of_le hb hbW
  obtain ⟨q, r, hqr, hrW⟩ : ∃ q r, (n + 1) * b = W * q + r ∧ r < W :=
    ⟨(n + 1) * b / W, (n + 1) * b % W, (Nat.div_add_mod _ _).symm,
      Nat.mod_lt _ hW⟩
  have hsucc : (n + 1) * b = n * b + b := by ring
  have hx : b ≤ (n + 1) * b := by omega
  have hnb : n * b = (n + 1) * b - b := by omega
  rw [hnb, hqr]
  exact div_sub_batch b W q r hb hbW hrW (hqr ▸ hx)

/-- Closed form of the optimizer-step count for `b ≤ W`: the first batch
always fires (`0 % W = 0 < b`), after which the count follows the floor
quotient of the already-consumed samples. -/
theorem optimSteps_formula (b W : ℕ) (hb : 0 < b) (hbW : b ≤ W) (n : ℕ) :
    (runBatches W b (n + 1)).optimSteps = n * b / W + 1 := by
  have hW : W ≠ 0 := by omega
  induction n with
  | zero =>
    show (trainBatch W b TrainSim.init).optimSteps = 0 * b / W + 1
    rw [trainBatch_optimSteps_fire W b TrainSim.init hW
      (by simp [TrainSim.init, Nat.zero_mod, hb])]
    simp [TrainSim.init]
  | succ n ih =>
    have htn : (runBatches W b (n + 1)).totalNums = (n + 1) * b :=
      runBatches_totalNums W b (n + 1)
    have hds := div_succ_batch b W n hb hbW
    by_cases h : ((n + 1) * b) % W < b
    · show (trainBatch W b (runBatches W b (n + 1))).optimSteps = _
      rw [trainBatch_optimSteps_fire W b _ hW (by rw [htn]; exact h), ih]
      rw [if_pos h] at hds
      omega
    · show (trainBatch W b (runBatches W b (n + 1))).optimSteps = _
      rw [trainBatch_optimSteps_nofire W b _ hW (by rw [htn]; exact h), ih]
      rw [if_neg h] at hds
      omega

/-- C1 (amended: the claim holds whenever the batch size `B` does not
exceed the accumulation window `W`): over `n` uniform batches of size
`B` with `accumulate = W` the optimizer step executes between
`⌊total_samples / W⌋` and `⌊total_samples / W⌋ + 1` times — within the
claimed ±1, and never more than the upper bound. -/
theorem c1_accumulation_step_count (b W n : ℕ) (hb : 0 < b) (hbW : b ≤ W) :
    (runBatches W b n).totalNums / W ≤ (runBatches W b n).optimSteps ∧
    (runBatches W b n).optimSteps ≤ (runBatches W b n).totalNums / W + 1 := by
  cases n with
  | zero => simp [runBatches, TrainSim.init]
  | succ n =>
    rw [runBatches_totalNums, optimSteps_formula b W hb hbW n]
    have hds := div_succ_batch b W n hb hbW
    have hk : (if ((n + 1) * b) % W < b then 1 else 0) ≤ 1 := by
      split <;> omega
    omega

theorem c1_accumulation_step_count_witness :
    0 < 2 ∧ 2 ≤ 5 ∧
      ((runBatches 5 2 4).totalNums / 5 ≤ (runBatches 5 2 4).optimSteps ∧
        (runBatches 5 2 4).optimSteps ≤ (runBatches 5 2 4).totalNums / 5 + 1) :=
  ⟨by decide, by decide, c1_accumulation_step_count 2 5 4 (by decide) (by decide)⟩

/-- C1 counterexample: with uniform batch size `B = 2` and window
`W = 1` (`accumulate=1` is truthy, and `total_nums % 1 = 0 < 2` on every
batch) every batch fires, so after 2 batches the optimizer has stepped
2 times while `⌊total_samples / W⌋ = 4` — off by 2, outside the claimed
±1 band. -/
theorem c1_counterexample :
    (runBatches 1 2 2).optimSteps = 2 ∧
    (runBatches 1 2 2).totalNums / 1 = 4 ∧
    (runBatches 1 2 2).optimSteps + 2 ≤ (runBatches 1 2 2).totalNums / 1 := by
  decide

/-- C2 counterexample: with `accumulate = 2` and batch size 1 the second
batch resolves no optimizer step (`optimSteps` is unchanged), yet
`total_steps` still increases by 1, so `total_steps` does not count
completed optimizer steps. -/
theorem c2_counterexample :
    (runBatches 2 1 2).optimSteps = (runBatches 2 1 1).optimSteps ∧
    (runBatches 2 1 2).totalSteps = (runBatches 2 1 1).totalSteps + 1 := by
  decide

/-- C2 (amended): `total_steps` increases by exactly 1 per processed
batch — on every `on_train_step_end`, whether or not the accumulation
boundary resolved an optimizer step — so after `n` batches it equals
`n`; and `epoch` increases by exactly 1 per `on_train_epoch_end` (one
completed pass, unless training halts early). -/
theorem c2_total_steps_per_batch (accumulate retsLen n : ℕ) (s : TrainSim) :
    (trainBatch accumulate retsLen s).totalSteps = s.totalSteps + 1 ∧
    (runBatches accumulate retsLen n).totalSteps = n ∧
    (on_train_epoch_end s).epoch = s.epoch + 1 :=
  ⟨trainBatch_totalSteps accumulate retsLen s,
    runBatches_totalSteps accumulate retsLen n, rfl⟩

/-! ### Lookup/update lemmas for the dict model -/

theorem dictFind_cons_of_ne {α : Type} (kv : String × α)
    (rest : List (String × α)) (k : String) (h : kv.1 ≠ k) :
    dictFind (kv :: rest) k = dictFind rest k := by
  simp [dictFind, List.find?_cons, h]

theorem dictFind_cons_of_eq {α : Type} (kv : String × α)
    (rest : List (String × α)) (k : String) (h : kv.1 = k) :
    dictFind (kv :: rest) k = some kv.2 := by
  simp [dictFind, List.find?_cons, h]

theorem dictFind_dictSet_self {α : Type} (d : List (String × α)) (k : String)
    (v : α) : dictFind (dictSet d k v) k = some v := by
  induction d with
  | nil => exact dictFind_cons_of_eq (k, v) [] k rfl
  | cons kv rest ih =>
    by_cases h : kv.1 = k
    · rw [dictSet, if_pos h]
      exact dictFind_cons_of_eq (k, v) rest k rfl
    · rw [dictSet, if_neg h, dictFind_cons_of_ne kv _ k h]
      exact ih

theorem dictFind_dictSet_ne {α : Type} (d : List (String × α)) (k k' : String)
    (v : α) (h : k' ≠ k) : dictFind (dictSet d k v) k' = dictFind d k' := by
  induction d with
  | nil =>
    show dictFind [(k, v)] k' = dictFind [] k'
    rw [dictFind_cons_of_ne (k, v) [] k' (Ne.symm h)]
  | cons kv rest ih =>
    by_cases hk : kv.1 = k
    · rw [dictSet, if_pos hk, dictFind_cons_of_ne (k, v) rest k' (Ne.symm h),
        dictFind_cons_of_ne kv rest k' (by rw [hk]; exact Ne.symm h)]
    · rw [dictSet, if_neg hk]
      by_cases hkv : kv.1 = k'
      · rw [dictFind_cons_of_eq kv _ k' hkv, dictFind_cons_of_eq kv _ k' hkv]
      · rw [dictFind_cons_of_ne kv _ k' hkv, dictFind_cons_of_ne kv _ k' hkv]
        exact ih

theorem dictFind_append_left {α : Type} (d e : List (String × α)) (k : String)
    (h : (dictFind d k).isSome) : dictFind (d ++ e) k = dictFind d k := by
  unfold dictFind at h ⊢
  rw [List.find?_append]
  cases hf : (d.find? fun kv => kv.1 == k) with
  | none => rw [hf] at h; simp at h
  | some kv => simp [hf]

theorem dictFind_nil {α : Type} (k : String) :
    dictFind ([] : List (String × α)) k = none := rfl

theorem dictFind_dictSetdefault_ne {α : Type} (d : List (String × α))
    (k k' : String) (v : α) (h : k' ≠ k) :
    dictFind (dictSetdefault d k v) k' = dictFind d k' := by
  unfold dictSetdefault
  split
  · rfl
  · cases hf : dictFind d k' with
    | none =>
      have hfind : List.find? (fun kv => kv.1 == k') d = none := by
        unfold dictFind at hf
        exact Option.map_eq_none.mp hf
      unfold dictFind
      rw [List.find?_append, hfind]
      simp [List.find?_cons, Ne.symm h]
    | some w =>
      rw [dictFind_append_left d [(k, v)] k' (by rw [hf]; rfl), hf]

theorem dictSetdefault_of_isSome {α : Type} (d : List (String × α))
    (k : String) (v : α) (h : (dictFind d k).isSome) :
    dictSetdefault d k v = d := by
  unfold dictSetdefault
  rw [if_pos h]

theorem dictFind_of_mem_nodup {α : Type} (d : List (String × α))
    (kv : String × α) (hmem : kv ∈ d) (hnd : (d.map Prod.fst).Nodup) :
    dictFind d kv.1 = some kv.2 := by
  induction d with
  | nil => cases hmem
  | cons hd rest ih =>
    rcases List.mem_cons.mp hmem with rfl | hmem2
    · exact dictFind_cons_of_eq kv rest kv.1 rfl
    · have hne : hd.1 ≠ kv.1 := by
        intro he
        have hin : kv.1 ∈ rest.map Prod.fst := List.mem_map_of_mem Prod.fst hmem2
        rw [← he] at hin
        exact (List.nodup_cons.mp hnd).1 hin
      rw [dictFind_cons_of_ne hd rest kv.1 hne]
      exact ih hmem2 (List.nodup_cons.mp hnd).2

theorem cincr_find_ne (c : Counters) (k k' : String) (v : FVal) (h : k' ≠ k) :
    dictFind (cincr c k v) k' = dictFind c k' :=
  dictFind_dictSet_ne c k k' _ h

theorem cincr_find_self (c : Counters) (k : String) (v : FVal) :
    dictFind (cincr c k v) k = some ((dictGetD c k (.fin 0)).add v) :=
  dictFind_dictSet_self c k _

/-! ## Full dict model of `on_train_step_end` (loss bookkeeping, C4)

The body of the output loop of `ModelHooks.on_train_step_end`
(lines 427-434): every output key starting with `loss` is added to the
running counter `check_{k}` and the pair
`(k, v), (mean_{k}, counters[check_{k}] / counters[check_nums])` is
recorded in the `losses` dict. -/

/-- python `str.startswith`, computed on the character lists. -/
def pyStartsWith (s p : String) : Bool := p.toList.isPrefixOf s.toList

def lossLoop (acc : Counters × List (String × FVal)) (kv : String × FVal) :
    Counters × List (String × FVal) :=
  if pyStartsWith kv.1 "loss" then
    let c := dictSet acc.1 ("check_" ++ kv.1)
      ((dictGetD acc.1 ("check_" ++ kv.1) (.fin 0)).add kv.2)
    let mean := (dictGetD c ("check_" ++ kv.1) (.fin 0)).div
      (dictGetD c "check_nums" (.fin 0))
    (c, acc.2 ++ [(kv.1, kv.2), ("mean_" ++ kv.1, mean)])
  else acc

/-- `ModelHooks.on_train_step_end` on the counters dict: the four
unconditional counter increments (lines 422-425) followed by the loss
bookkeeping loop, returning the new counters and the freshly built
`losses` dict that is stored in `train_container['losses']`. -/
def on_train_step_end_counters (retsLen : ℕ) (outputs : List (String × FVal))
    (c : Counters) : Counters × List (String × FVal) :=
  outputs.foldl lossLoop
    (cincr (cincr (cincr (cincr c "total_nums" (.fin retsLen))
      "total_steps" (.fin 1)) "per_epoch_nums" (.fin retsLen))
      "check_nums" (.fin retsLen), [])

/-- A checkpoint interval in which every sample has per-sample loss `L`:
each processed batch of `m` samples reports the loss scalar `m * L` (the
sum of its samples' losses), and the step-end bookkeeping runs once per
batch.  The second component is the `losses` dict of the last step, the
one snapshotted by `_check_train`. -/
def intervalStep (L : ℚ) (acc : Counters × List (String × FVal)) (m : ℕ) :
    Counters × List (String × FVal) :=
  on_train_step_end_counters m [("loss", .fin (m * L))] acc.1

def runInterval (L : ℚ) (sizes : List ℕ) (c : Counters) :
    Counters × List (String × FVal) :=
  sizes.foldl (intervalStep L) (c, [])

theorem stepEnd_check_invariant (L : ℚ) (m : ℕ) (S : ℚ) (c : Counters)
    (hn : dictFind c "check_nums" = some (.fin S))
    (hl : dictGetD c "check_loss" (.fin 0) = .fin (S * L)) :
    dictFind (on_train_step_end_counters m [("loss", .fin (m * L))] c).1
        "check_nums" = some (.fin (S + m)) ∧
    dictGetD (on_train_step_end_counters m [("loss", .fin (m * L))] c).1
        "check_loss" (.fin 0) = .fin ((S + m) * L) ∧
    (S + (m : ℚ) ≠ 0 →
      dictFind (on_train_step_end_counters m [("loss", .fin (m * L))] c).2
        "mean_loss" = some (.fin L)) := by
  have hkey : ("check_" ++ "loss" : String) = "check_loss" := by decide
  unfold on_train_step_end_counters
  rw [List.foldl_cons, List.foldl_nil]
  set c1 := cincr c "total_nums" (.fin (m : ℚ)) with hc1
  set c2 := cincr c1 "total_steps" (.fin 1) with hc2
  set c3 := cincr c2 "per_epoch_nums" (.fin (m : ℚ)) with hc3
  set c4 := cincr c3 "check_nums" (.fin (m : ℚ)) with hc4
  have hn3 : dictFind c3 "check_nums" = some (.fin S) := by
    rw [hc3, cincr_find_ne _ _ _ _ (by decide), hc2,
      cincr_find_ne _ _ _ _ (by decide), hc1,
      cincr_find_ne _ _ _ _ (by decide)]
    exact hn
  have hn4 : dictFind c4 "check_nums" = some (.fin (S + m)) := by
    rw [hc4, cincr_find_self]
    unfold dictGetD
    rw [hn3]
    rfl
  have hl4 : dictGetD c4 "check_loss" (.fin 0) = .fin (S * L) := by
    unfold dictGetD
    rw [hc4, cincr_find_ne _ _ _ _ (by decide), hc3,
      cincr_find_ne _ _ _ _ (by decide), hc2,
      cincr_find_ne _ _ _ _ (by decide), hc1,
      cincr_find_ne _ _ _ _ (by decide)]
    exact hl
  have hmkey : ("mean_" ++ "loss" : String) = "mean_loss" := by decide
  unfold lossLoop
  dsimp only
  have hsw : pyStartsWith "loss" "loss" = true := by decide
  rw [if_pos hsw]
  simp only [hkey, hmkey, List.nil_append]
  set c5 := dictSet c4 "check_loss"
    ((dictGetD c4 "check_loss" (.fin 0)).add (.fin (m * L))) with hc5
  have hl5find : dictFind c5 "check_loss" = some (.fin ((S + m) * L)) := by
    rw [hc5, dictFind_dictSet_self, hl4]
    show some (FVal.fin (S * L + m * L)) = _
    rw [show S * L + (m : ℚ) * L = (S + m) * L by ring]
  have hl5 : dictGetD c5 "check_loss" (.fin 0) = .fin ((S + m) * L) := by
    unfold dictGetD
    rw [hl5find]
    rfl
  have hn5 : dictFind c5 "check_nums" = some (.fin (S + m)) := by
    rw [hc5, dictFind_dictSet_ne _ _ _ _ (by decide)]
    exact hn4
  refine ⟨hn5, hl5, fun hSm => ?_⟩
  have hmean : (dictGetD c5 "check_loss" (.fin 0)).div
      (dictGetD c5 "check_nums" (.fin 0)) = .fin L := by
    rw [hl5]
    unfold dictGetD
    rw [hn5]
    show FVal.fin ((S + m) * L / (S + m)) = FVal.fin L
    rw [mul_comm, mul_div_assoc, div_self hSm, mul_one]
  rw [dictFind_cons_of_ne _ _ _ (show ("loss" : String) ≠ "mean_loss" by decide),
    dictFind_cons_of_eq _ _ _ rfl, hmean]

theorem runInterval_invariant (L : ℚ) (sizes : List ℕ) :
    ∀ (c : Counters) (prev : List (String × FVal)) (S : ℚ),
      0 ≤ S → (∀ m ∈ sizes, 0 < m) →
      dictFind c "check_nums" = some (.fin S) →
      dictGetD c "check_loss" (.fin 0) = .fin (S * L) →
      dictFind (sizes.foldl (intervalStep L) (c, prev)).1 "check_nums"
          = some (.fin (S + sizes.sum)) ∧
      (sizes ≠ [] →
        dictFind (sizes.foldl (intervalStep L) (c, prev)).2 "mean_loss"
          = some (.fin L)) := by
  induction sizes with
  | nil =>
    intro c prev S _ _ hn _
    refine ⟨?_, fun h => absurd rfl h⟩
    rw [List.foldl_nil, hn]
    norm_num
  | cons m rest ih =>
    intro c prev S hS hpos hn hl
    have inv := stepEnd_check_invariant L m S c hn hl
    rw [List.foldl_cons]
    have hstep : intervalStep L (c, prev) m
        = on_train_step_end_counters m [("loss", .fin (m * L))] c := rfl
    rw [hstep]
    set r := on_train_step_end_counters m [("loss", .fin (m * L))] c with hr
    have hSm : (0 : ℚ) ≤ S + m := by positivity
    have ihr := ih r.1 r.2 (S + m) hSm (fun x hx => hpos x (List.mem_cons_of_mem m hx))
      inv.1 inv.2.1
    have hsum : S + (m : ℚ) + (rest.sum : ℚ) = S + ((m :: rest).sum : ℚ) := by
      rw [List.sum_cons]
      push_cast
      ring
    by_cases hrest : rest = []
    · subst hrest
      refine ⟨?_, fun _ => ?_⟩
      · rw [List.foldl_nil]
        have hms : (((m :: ([] : List ℕ)).sum : ℕ) : ℚ) = (m : ℚ) := by simp
        rw [hms]
        exact inv.1
      · rw [List.foldl_nil]
        refine inv.2.2 ?_
        have hmpos : (0 : ℚ) < m := by
          exact_mod_cast hpos m (by simp)
        linarith
    · refine ⟨?_, fun _ => ?_⟩
      · rw [← hsum]
        exact ihr.1
      · exact ihr.2 hrest

/-- C4: over any checkpoint interval (any nonempty sequence of batches
of positive, possibly variable, sizes) in which every processed sample
has constant per-sample loss `L`, the reported `mean_loss` — the running
`check_loss` sum divided by the running sample count `check_nums` as
computed by `on_train_step_end` — equals `L` exactly. -/
theorem c4_constant_loss_mean (L : ℚ) (sizes : List ℕ) (c : Counters)
    (hne : sizes ≠ []) (hpos : ∀ m ∈ sizes, 0 < m)
    (hn : dictFind c "check_nums" = some (.fin 0))
    (hl : dictGetD c "check_loss" (.fin 0) = .fin 0) :
    dictFind (runInterval L sizes c).2 "mean_loss" = some (.fin L) :=
  (runInterval_invariant L sizes c [] 0 le_rfl hpos hn
    (by rw [hl, zero_mul])).2 hne

theorem c4_constant_loss_mean_witness :
    ([2, 3] : List ℕ) ≠ [] ∧ (∀ m ∈ ([2, 3] : List ℕ), 0 < m) ∧
    dictFind ([("check_nums", FVal.fin 0)] : Counters) "check_nums"
        = some (.fin 0) ∧
    dictGetD ([("check_nums", FVal.fin 0)] : Counters) "check_loss" (.fin 0)
        = .fin 0 ∧
    dictFind (runInterval 7 [2, 3] [("check_nums", FVal.fin 0)]).2 "mean_loss"
        = some (.fin 7) :=
  ⟨by decide, by decide, by decide, by decide,
    c4_constant_loss_mean 7 [2, 3] [("check_nums", FVal.fin 0)]
      (by decide) (by decide) (by decide) (by decide)⟩

/-! ## `_check_train`: NaN/Inf detection, counter reset, checkpoint
writes (C3, C6) -/

/-- The NaN/Inf scan of `ModelHooks._check_train` (lines 489-493) over
the snapshotted `losses` dict: the accumulator carries the `end_flag`
and the list of emitted stop-warning log entries (offending key and
value). -/
def nanScan (acc : Bool × List (String × FVal)) :
    List (String × FVal) → Bool × List (String × FVal)
  | [] => acc
  | kv :: rest =>
    nanScan (if kv.2.isnan || kv.2.isinf then (true, acc.2 ++ [kv]) else acc) rest

/-- The checkpoint-write decision of `ModelHooks._check_train`
(lines 516-520): a non-int (`None`) retention writes only the `last`
file; a positive retention writes only the numbered snapshot (and then
runs the retention deletion); a non-positive int writes nothing. -/
def checkTrainSaves : Option ℤ → ℕ → List String
  | none, _ => ["last.pth"]
  | some m, checkNum => if 0 < m then [toString checkNum ++ ".pth"] else []

structure CheckTrainResult where
  counters : Counters
  endFlag : Bool
  stopLogs : List (String × FVal)
  saves : List String
deriving DecidableEq

/-- `ModelHooks._check_train` (lines 486-522): scans the snapshotted
losses for NaN/Inf — setting `end_flag` and logging the offending key —
then resets every `check_*` counter to 0 and persists the checkpoint
per `checkTrainSaves`; with no snapshot (`losses is None`) only the
persistence runs.  The wandb/logging traces and elapsed-time bookkeeping
are pure output and are not modelled; the source path raises no
exception, and correspondingly the function is total. -/
def check_train (c : Counters) (endFlag : Bool)
    (losses : Option (List (String × FVal))) (maxSaveWeightNum : Option ℤ)
    (checkNum : ℕ) : CheckTrainResult :=
  match losses with
  | none => ⟨c, endFlag, [], checkTrainSaves maxSaveWeightNum checkNum⟩
  | some ls =>
    let fl := nanScan (endFlag, []) ls
    ⟨c.map (fun kv => if pyStartsWith kv.1 "check_" then (kv.1, FVal.fin 0) else kv),
      fl.1, fl.2, checkTrainSaves maxSaveWeightNum checkNum⟩

theorem nanScan_flag_true (ls : List (String × FVal))
    (lg : List (String × FVal)) : (nanScan (true, lg) ls).1 = true := by
  induction ls generalizing lg with
  | nil => rfl
  | cons kv rest ih =>
    unfold nanScan
    by_cases h : (kv.2.isnan || kv.2.isinf) = true
    · rw [if_pos h]
      exact ih (lg ++ [kv])
    · rw [if_neg h]
      exact ih lg

theorem nanScan_log_mono (ls : List (String × FVal)) (f : Bool)
    (lg : List (String × FVal)) (kv : String × FVal) (h : kv ∈ lg) :
    kv ∈ (nanScan (f, lg) ls).2 := by
  induction ls generalizing f lg with
  | nil => exact h
  | cons x rest ih =>
    unfold nanScan
    by_cases hx : (x.2.isnan || x.2.isinf) = true
    · rw [if_pos hx]
      exact ih true (lg ++ [x]) (List.mem_append_left [x] h)
    · rw [if_neg hx]
      exact ih f lg h

theorem nanScan_hit (ls : List (String × FVal)) (k : String) (v : FVal)
    (hmem : (k, v) ∈ ls) (hbad : (v.isnan || v.isinf) = true) (f : Bool)
    (lg : List (String × FVal)) :
    (nanScan (f, lg) ls).1 = true ∧ (k, v) ∈ (nanScan (f, lg) ls).2 := by
  induction ls generalizing f lg with
  | nil => cases hmem
  | cons x rest ih =>
    rcases List.mem_cons.mp hmem with heq | hmem2
    · unfold nanScan
      rw [← heq]
      dsimp only
      rw [if_pos hbad]
      exact ⟨nanScan_flag_true rest _,
        nanScan_log_mono rest true _ (k, v) (List.mem_append_right lg (by simp))⟩
    · unfold nanScan
      by_cases hx : (x.2.isnan || x.2.isinf) = true
      · rw [if_pos hx]
        exact ih hmem2 true (lg ++ [x])
      · rw [if_neg hx]
        exact ih hmem2 f lg

/-- C3: whenever the checkpoint-and-metric routine `_check_train` runs
and any snapshotted loss value of the interval is NaN or infinite, it
sets the cooperative termination flag and logs the offending key, and it
still performs exactly the policy-determined checkpoint write — the
embedded routine is total, mirroring the raise-free source path, and
the flag it sets is what `on_train_step_end` / `on_train_epoch_end`
return, ending the run at the next boundary with the written checkpoint
intact. -/
theorem c3_nan_inf_sets_end_flag (c : Counters) (flag : Bool)
    (ls : List (String × FVal)) (msn : Option ℤ) (num : ℕ) (k : String)
    (v : FVal) (hmem : (k, v) ∈ ls) (hbad : (v.isnan || v.isinf) = true) :
    (check_train c flag (some ls) msn num).endFlag = true ∧
    (k, v) ∈ (check_train c flag (some ls) msn num).stopLogs ∧
    (check_train c flag (some ls) msn num).saves
      = checkTrainSaves msn num := by
  have h := nanScan_hit ls k v hmem hbad flag []
  exact ⟨h.1, h.2, rfl⟩

theorem c3_nan_inf_sets_end_flag_witness :
    (("loss", FVal.nan) ∈ [("loss", FVal.nan)]) ∧
    ((FVal.nan.isnan || FVal.nan.isinf) = true) ∧
    ((check_train [] false (some [("loss", FVal.nan)]) none 0).endFlag = true ∧
      ("loss", FVal.nan)
        ∈ (check_train [] false (some [("loss", FVal.nan)]) none 0).stopLogs ∧
      (check_train [] false (some [("loss", FVal.nan)]) none 0).saves
        = checkTrainSaves none 0) :=
  ⟨by decide, by decide,
    c3_nan_inf_sets_end_flag [] false [("loss", FVal.nan)] none 0 "loss"
      FVal.nan (by decide) (by decide)⟩

/-- `FileCacher.delete_over_range` (utils/os_lib.py lines 354-372) as
invoked by `_check_train`: `caches` is the list of (filename, creation
time) of every file in the work dir matching the glob `*pth` — which
includes `last.pth` and `best.pth`.  A falsy `max_size` (`None` or `0`)
does nothing; otherwise, when the file count exceeds `max_size`, the
first file with the minimal creation time is removed and returned. -/
def delete_over_range : Option ℤ → List (String × ℕ) → Option String
  | none, _ => none
  | some m, caches =>
    if m = 0 then none
    else if (caches.length : ℤ) > m then
      match caches with
      | [] => none
      | p0 :: rest =>
        ((p0 :: rest).find?
          (fun p => p.2 == (rest.map (fun q => q.2)).foldl min p0.2)).map
          (fun p => p.1)
    else none

theorem foldl_min_le (ts : List ℕ) (t : ℕ) :
    ts.foldl min t ≤ t ∧ ∀ x ∈ ts, ts.foldl min t ≤ x := by
  induction ts generalizing t with
  | nil => exact ⟨le_rfl, by simp⟩
  | cons a as ih =>
    refine ⟨le_trans (ih (min t a)).1 (min_le_left t a), ?_⟩
    intro x hx
    rcases List.mem_cons.mp hx with rfl | hx2
    · exact le_trans (ih (min t x)).1 (min_le_right t x)
    · exact (ih (min t a)).2 x hx2

/-- C6 counterexample: with retention `max_save_weight_num = 3` the
checkpoint routine writes only the numbered snapshot `7.pth` — no
`last` file — and the retention deletion, which globs every `*pth`
file, removes `best.pth` when it is the oldest by creation time. -/
theorem c6_counterexample :
    checkTrainSaves (some 3) 7 = ["7.pth"] ∧
    delete_over_range (some 2) [("best.pth", 0), ("1.pth", 1), ("2.pth", 2)]
      = some "best.pth" := by
  decide

/-- C6 (amended): at each checkpoint interval the routine writes exactly
one of the files — `last.pth` when the retention is `None`, the numbered
snapshot when the retention is a positive int, and nothing when it is a
non-positive int; and the retention deletion selects the file of minimal
creation time among all `.pth` files it is given, with no exclusion of
`last`/`best`. -/
theorem c6_save_and_retention :
    (∀ n : ℕ, checkTrainSaves none n = ["last.pth"]) ∧
    (∀ (m : ℤ) (n : ℕ), 0 < m →
      checkTrainSaves (some m) n = [toString n ++ ".pth"]) ∧
    (∀ (m : ℤ) (n : ℕ), m ≤ 0 → checkTrainSaves (some m) n = []) ∧
    (∀ (ms : Option ℤ) (caches : List (String × ℕ)) (d : String),
      delete_over_range ms caches = some d →
        ∃ t, (d, t) ∈ caches ∧ ∀ p ∈ caches, t ≤ p.2) := by
  refine ⟨fun n => rfl, fun m n hm => ?_, fun m n hm => ?_, ?_⟩
  · simp only [checkTrainSaves]
    rw [if_pos hm]
  · simp only [checkTrainSaves]
    rw [if_neg (not_lt.mpr hm)]
  · intro ms caches d hdel
    rcases ms with _ | m
    · simp [delete_over_range] at hdel
    · simp only [delete_over_range] at hdel
      by_cases h0 : m = 0
      · rw [if_pos h0] at hdel
        cases hdel
      · rw [if_neg h0] at hdel
        by_cases h1 : (caches.length : ℤ) > m
        · rw [if_pos h1] at hdel
          rcases caches with _ | ⟨p0, rest⟩
          · dsimp only at hdel
            cases hdel
          · dsimp only at hdel
            cases hfind : List.find?
                (fun p => p.2 == (rest.map (fun q => q.2)).foldl min p0.2)
                (p0 :: rest) with
            | none => rw [hfind] at hdel; cases hdel
            | some q =>
              rw [hfind] at hdel
              have hq : q ∈ p0 :: rest := List.mem_of_find?_eq_some hfind
              have hqc := List.find?_some hfind
              have hqct : q.2 = (rest.map (fun x => x.2)).foldl min p0.2 := by
                simpa using hqc
              have hd : d = q.1 := by
                simp only [Option.map] at hdel
                exact (Option.some.injEq _ _).mp hdel.symm
              refine ⟨q.2, ?_, ?_⟩
              · rw [hd]
                exact hq
              · intro p hp
                rw [hqct]
                rcases List.mem_cons.mp hp with rfl | hp2
                · exact (foldl_min_le (rest.map (fun x => x.2)) p.2).1
                · exact (foldl_min_le (rest.map (fun x => x.2)) p0.2).2 p.2
                    (List.mem_map_of_mem (fun x => x.2) hp2)
        · rw [if_neg h1] at hdel
          cases hdel

theorem c6_save_and_retention_witness :
    (0 : ℤ) < 1 ∧
    checkTrainSaves (some 1) 9 = [toString (9 : ℕ) ++ ".pth"] ∧
    (∃ t, ("b.pth", t) ∈ [("a.pth", 5), ("b.pth", 3)] ∧
      ∀ p ∈ [("a.pth", 5), ("b.pth", 3)], t ≤ p.2) :=
  ⟨by decide, c6_save_and_retention.2.1 1 9 (by decide),
    c6_save_and_retention.2.2.2 (some 1) [("a.pth", 5), ("b.pth", 3)] "b.pth"
      (by decide)⟩

/-! ## Weights-only checkpoint round trip (C5) -/

/-- The processor state touched by `save_weight`/`load_weight`: the
model's parameter state dict (tensor payloads abstracted by `α`, so
"bit-identical" is equality) and the plain-assigned entries of
`self.__dict__` that `_load` restores for objects without a
`load_state_dict` method — such as the `counters` dict. -/
structure Proc (α : Type) where
  modelSD : List (String × α)
  auxDict : List (String × Counters)

/-- A weights-only checkpoint: the keyed bundle that
`CheckpointHooks.save_weight` passes to `torch.save` — the `model` key
holds `self.model.state_dict()` and the remaining keys are the
`save_items`; `torch.save`/`torch.load` round-trip the bundle
faithfully, so the file is modelled as the bundle itself. -/
structure Ckpt (α : Type) where
  model : List (String × α)
  items : List (String × Counters)

/-- `CheckpointHooks.save_weight` (lines 50-64). -/
def save_weight {α : Type} (p : Proc α)
    (saveItems : List (String × Counters)) : Ckpt α :=
  ⟨p.modelSD, saveItems⟩

/-- `self.model.load_state_dict(ckpt.pop('model'), strict=False)`: each
of the model's own parameters takes the checkpoint value when present;
keys missing from the checkpoint keep the old tensor; unexpected
checkpoint keys are ignored. -/
def load_state_dict {α : Type} (old ckpt : List (String × α)) :
    List (String × α) :=
  old.map (fun kv => (kv.1, (dictFind ckpt kv.1).getD kv.2))

/-- `CheckpointHooks.load_weight` (lines 127-157) with
`save_items=None`: restores the model parameters non-strictly and then
runs `_load` on every remaining checkpoint item; for items without a
`load_state_dict` method (the `counters` dict) `_load` plain-assigns
into `self.__dict__`. -/
def load_weight {α : Type} (p : Proc α) (c : Ckpt α) : Proc α :=
  ⟨load_state_dict p.modelSD c.model,
    c.items.foldl (fun d kv => dictSet d kv.1 kv.2) p.auxDict⟩

theorem list_map_mem_id {β : Type} (l : List β) (f : β → β)
    (h : ∀ x ∈ l, f x = x) : l.map f = l := by
  induction l with
  | nil => rfl
  | cons a as ih =>
    rw [List.map_cons, h a (by simp),
      ih (fun x hx => h x (List.mem_cons_of_mem a hx))]

theorem load_state_dict_self {α : Type} (sd : List (String × α))
    (hnd : (sd.map Prod.fst).Nodup) : load_state_dict sd sd = sd := by
  unfold load_state_dict
  refine list_map_mem_id sd _ (fun kv hkv => ?_)
  rw [dictFind_of_mem_nodup sd kv hkv hnd]
  rfl

/-- C5: saving weights-only state (the model's parameter dict plus the
`counters` dict among the saved items) and loading that checkpoint back
with `load_weight` on the untouched processor reproduces the parameter
dict exactly and restores an identical `counters` mapping. -/
theorem c5_weight_roundtrip {α : Type} (p : Proc α) (cs : Counters)
    (hnd : (p.modelSD.map Prod.fst).Nodup)
    (hcs : dictFind p.auxDict "counters" = some cs) :
    (load_weight p (save_weight p [("counters", cs)])).modelSD = p.modelSD ∧
    dictFind (load_weight p (save_weight p [("counters", cs)])).auxDict
      "counters" = some cs := by
  constructor
  · exact load_state_dict_self p.modelSD hnd
  · show dictFind (dictSet p.auxDict "counters" cs) "counters" = some cs
    exact dictFind_dictSet_self p.auxDict "counters" cs

theorem c5_weight_roundtrip_witness :
    (([("w", 3), ("b", 4)] : List (String × ℕ)).map Prod.fst).Nodup ∧
    dictFind [("counters", [("epoch", FVal.fin 2)])] "counters"
        = some [("epoch", FVal.fin 2)] ∧
    ((load_weight (Proc.mk [("w", 3), ("b", 4)]
        [("counters", [("epoch", FVal.fin 2)])])
        (save_weight (Proc.mk [("w", 3), ("b", 4)]
          [("counters", [("epoch", FVal.fin 2)])])
          [("counters", [("epoch", FVal.fin 2)])])).modelSD
        = [("w", 3), ("b", 4)] ∧
      dictFind (load_weight (Proc.mk [("w", 3), ("b", 4)]
        [("counters", [("epoch", FVal.fin 2)])])
        (save_weight (Proc.mk [("w", 3), ("b", 4)]
          [("counters", [("epoch", FVal.fin 2)])])
          [("counters", [("epoch", FVal.fin 2)])])).auxDict "counters"
        = some [("epoch", FVal.fin 2)]) :=
  ⟨by decide, by decide,
    c5_weight_roundtrip (Proc.mk [("w", 3), ("b", 4)]
      [("counters", [("epoch", FVal.fin 2)])])
      [("epoch", FVal.fin 2)] (by decide) (by decide)⟩

/-! ## Early-Stop Policy construction (C7) -/

/-- The parameter names of `EarlyStopping.__init__` in
utils/torch_utils.py (line 84): `(self, thres=0.005, patience=30,
min_epoch=None, verbose=True, stdout_method=print)`. -/
def earlyStoppingInitParams : List String :=
  ["thres", "patience", "min_epoch", "verbose", "stdout_method"]

/-- The keyword arguments passed by `ModelHooks.set_stopper`
(model_process.py line 221):
`EarlyStopping(patience=10, min_period=10, ignore_min_score=0.1,
stdout_method=self.log)`. -/
def setStopperKwargs : List String :=
  ["patience", "min_period", "ignore_min_score", "stdout_method"]

/-- C7: the constructor invoked by `set_stopper` does not accept the
keyword arguments `min_period` and `ignore_min_score` that
`set_stopper` passes — the call raises `TypeError`, so the constructed
policy cannot honor those parameters (the source class has `min_epoch`
and an improvement threshold `thres` instead). -/
theorem c7_set_stopper_kwargs_rejected :
    "min_period" ∈ setStopperKwargs ∧
    "ignore_min_score" ∈ setStopperKwargs ∧
    "min_period" ∉ earlyStoppingInitParams ∧
    "ignore_min_score" ∉ earlyStoppingInitParams ∧
    setStopperKwargs.all (fun k => earlyStoppingInitParams.contains k)
      = false := by
  decide

/-! ## Early-Stop Policy evaluation (C8)

Shallow embedding of `EarlyStopping` from utils/torch_utils.py: float
scores become exact rationals, `float('inf')` patience becomes `none`. -/

structure EarlyStopping where
  thres : ℚ
  best_fitness : ℚ
  best_epoch : ℤ
  acc_epoch : ℤ
  min_epoch : ℤ
  last_epoch : ℤ
  patience : Option ℚ
deriving DecidableEq

/-- `EarlyStopping.__init__` (lines 84-93): `min_epoch or 0` and
`patience or float('inf')` keep python truthiness (`None` and `0` are
falsy; `none` models infinity). -/
def EarlyStopping.mkInit (thres : ℚ) (patience : Option ℚ)
    (min_epoch : Option ℤ) : EarlyStopping :=
  { thres := thres
    best_fitness := 0
    best_epoch := 0
    acc_epoch := 0
    min_epoch := min_epoch.getD 0
    last_epoch := min_epoch.getD 0
    patience := match patience with
      | none => none
      | some p => if p = 0 then none else some p }

/-- `stop = self.acc_epoch >= self.patience`: a finite idle count is
never `≥ float('inf')`. -/
def stopFlag (s : EarlyStopping) : Bool :=
  match s.patience with
  | none => false
  | some p => decide (p ≤ (s.acc_epoch : ℚ))

/-- The state mutation of `EarlyStopping.__call__` (lines 99-107): an
improvement beyond `thres` resets the idle count and records the best;
a score within `thres` of the best accumulates idle epochs; `last_epoch`
always advances. -/
def EarlyStopping.update (s : EarlyStopping) (epoch : ℤ) (fitness : ℚ) :
    EarlyStopping :=
  { (if s.thres < fitness - s.best_fitness then
      { s with best_epoch := epoch, best_fitness := fitness, acc_epoch := 0 }
    else if |s.best_fitness - fitness| ≤ s.thres then
      { s with acc_epoch := s.acc_epoch + (epoch - s.last_epoch) }
    else s) with last_epoch := epoch }

/-- `EarlyStopping.__call__` (lines 95-111): epochs before `min_epoch`
return `False` without touching the state; otherwise the state is
updated and the stop decision returned (verbose logging omitted). -/
def EarlyStopping.call (s : EarlyStopping) (epoch : ℤ) (fitness : ℚ) :
    EarlyStopping × Bool :=
  if epoch < s.min_epoch then (s, false)
  else (s.update epoch fitness, stopFlag (s.update epoch fitness))

/-- Whether any call of the evaluation sequence returns stop. -/
def anyStop (s : EarlyStopping) : List (ℤ × ℚ) → Bool
  | [] => false
  | c :: rest =>
    (s.call c.1 c.2).2 || anyStop (s.call c.1 c.2).1 rest

def patiencePos (s : EarlyStopping) : Bool :=
  match s.patience with
  | none => true
  | some p => decide (0 < p)

/-- Every score exceeds the previous score (starting from the base `b`)
by more than `t`. -/
def gapsGT (t : ℚ) : ℚ → List (ℤ × ℚ) → Bool
  | _, [] => true
  | b, c :: rest => decide (b + t < c.2) && gapsGT t c.2 rest

/-- Both the step numbers and the scores of the call sequence are
strictly increasing. -/
def strictIncr : List (ℤ × ℚ) → Bool
  | [] => true
  | [_] => true
  | a :: b :: rest =>
    decide (a.1 < b.1) && decide (a.2 < b.2) && strictIncr (b :: rest)

/-- The evaluation sequence with epochs 0..30 and scores (j+1)/10000. -/
def c8calls : List (ℤ × ℚ) :=
  (List.range 31).map (fun j => (Int.ofNat j, mkRat (Int.ofNat j + 1) 10000))

/-- C8 counterexample: with the source's default configuration
(`thres=0.005`, `patience=30`, `min_epoch=None`) a strictly increasing
score sequence — epochs 0..30, scores (j+1)/10000 — stops at epoch 30:
each increase stays within the improvement threshold of the best score,
so every call accumulates idle epochs until patience is exhausted. -/
theorem c8_counterexample :
    strictIncr c8calls = true ∧
    anyStop (EarlyStopping.mkInit (mkRat 5 1000) (some 30) none) c8calls
      = true := by
  decide

theorem gapsGT_mono (t : ℚ) (b b' : ℚ) (hb : b' ≤ b) (l : List (ℤ × ℚ))
    (h : gapsGT t b l = true) : gapsGT t b' l = true := by
  cases l with
  | nil => rfl
  | cons c rest =>
    simp only [gapsGT, Bool.and_eq_true, decide_eq_true_eq] at h ⊢
    exact ⟨by linarith [h.1], h.2⟩

theorem stopFlag_of_acc_zero (s : EarlyStopping) (h : s.acc_epoch = 0)
    (hp : patiencePos s = true) : stopFlag s = false := by
  unfold stopFlag
  unfold patiencePos at hp
  cases hp2 : s.patience with
  | none => rfl
  | some p =>
    rw [hp2] at hp
    have hp' : (0 : ℚ) < p := of_decide_eq_true hp
    rw [h]
    simp only [Int.cast_zero]
    exact decide_eq_false (not_le.mpr hp')

/-- C8 (amended): the evaluation call never returns stop on a strictly
increasing score sequence whose every score improves on the running
best by more than the improvement threshold `thres` — for any stopper
state with nonnegative threshold and positive (or infinite) patience.
(Strict increase alone does not suffice: sub-threshold increases
accumulate idle epochs, see the counterexample.) -/
theorem c8_improving_scores_never_stop (s : EarlyStopping)
    (calls : List (ℤ × ℚ)) (ht : 0 ≤ s.thres) (hp : patiencePos s = true)
    (hg : gapsGT s.thres s.best_fitness calls = true) :
    anyStop s calls = false := by
  induction calls generalizing s with
  | nil => rfl
  | cons c rest ih =>
    obtain ⟨e, f⟩ := c
    simp only [gapsGT, Bool.and_eq_true, decide_eq_true_eq] at hg
    obtain ⟨hgap, hrest⟩ := hg
    unfold anyStop
    by_cases hskip : e < s.min_epoch
    · have hcall : s.call e f = (s, false) := by
        unfold EarlyStopping.call
        rw [if_pos hskip]
      rw [hcall]
      simp only [Bool.false_or]
      exact ih s ht hp (gapsGT_mono s.thres f s.best_fitness (by linarith) rest hrest)
    · have himp : s.thres < f - s.best_fitness := by linarith
      have hupd : s.update e f =
          { s with
            best_epoch := e
            best_fitness := f
            acc_epoch := 0
            last_epoch := e } := by
        unfold EarlyStopping.update
        rw [if_pos himp]
      have hcall : s.call e f = (s.update e f, stopFlag (s.update e f)) := by
        unfold EarlyStopping.call
        rw [if_neg hskip]
      have hflag : stopFlag (s.update e f) = false := by
        refine stopFlag_of_acc_zero _ ?_ ?_
        · rw [hupd]
        · rw [hupd]
          exact hp
      rw [hcall]
      simp only [hflag, Bool.false_or]
      refine ih (s.update e f) ?_ ?_ ?_
      · rw [hupd]
        exact ht
      · rw [hupd]
        exact hp
      · rw [hupd]
        exact hrest

theorem c8_improving_scores_never_stop_witness :
    0 ≤ (EarlyStopping.mkInit (mkRat 5 1000) (some 30) none).thres ∧
    patiencePos (EarlyStopping.mkInit (mkRat 5 1000) (some 30) none) = true ∧
    gapsGT (EarlyStopping.mkInit (mkRat 5 1000) (some 30) none).thres
      (EarlyStopping.mkInit (mkRat 5 1000) (some 30) none).best_fitness
      [((0 : ℤ), (1 : ℚ)), ((5 : ℤ), (2 : ℚ))] = true ∧
    anyStop (EarlyStopping.mkInit (mkRat 5 1000) (some 30) none)
      [((0 : ℤ), (1 : ℚ)), ((5 : ℤ), (2 : ℚ))] = false :=
  ⟨by decide, by decide, by decide,
    c8_improving_scores_never_stop
      (EarlyStopping.mkInit (mkRat 5 1000) (some 30) none)
      [((0 : ℤ), (1 : ℚ)), ((5 : ℤ), (2 : ℚ))]
      (by decide) (by decide) (by decide)⟩

/-! ## Validation/Prediction Pipeline counter effects (C9) -/

/-- The counter effects of `ModelHooks.on_val_start` (lines 600-602):
`counters['vis_num'] = 0` and `counters.setdefault('epoch', -1)`. -/
def on_val_start_counters (c : Counters) : Counters :=
  dictSetdefault (dictSet c "vis_num" (.fin 0)) "epoch" (.fin (-1))

/-- The counter effects of `ModelHooks.on_predict_start` (lines 664-666):
`counters['vis_num'] = 0` and `counters['total_nums'] = -1`. -/
def on_predict_start_counters (c : Counters) : Counters :=
  dictSet (dictSet c "vis_num" (.fin 0)) "total_nums" (.fin (-1))

/-- The finite value of `counters['vis_num']` (set to 0 by the start
hooks before any step end runs). -/
def visCount (c : Counters) : ℚ :=
  match dictFind c "vis_num" with
  | some (.fin q) => q
  | _ => 0

/-- `n = min(batch_size, max_vis_num - vis_num)` where
`max_vis_num = max_vis_num or float('inf')` — python truthiness: `None`
and `0` both mean no bound, and `min(batch_size, inf - vis)` is the
batch size. -/
def visIncrement (batchSize : ℚ) (maxVisNum : Option ℚ) (vis : ℚ) : ℚ :=
  match maxVisNum with
  | none => batchSize
  | some mv => if mv = 0 then batchSize else min batchSize (mv - vis)

/-- The counter effects of `ModelHooks.on_val_step_end` (lines 621-628):
when visualization is on and the remaining budget `n` is positive,
`counters['vis_num'] += n`; nothing else is touched. -/
def on_val_step_end_counters (isVisualize : Bool) (batchSize : ℚ)
    (maxVisNum : Option ℚ) (c : Counters) : Counters :=
  if isVisualize then
    if 0 < visIncrement batchSize maxVisNum (visCount c) then
      dictSet c "vis_num"
        (.fin (visCount c + visIncrement batchSize maxVisNum (visCount c)))
    else c
  else c

/-- C9 counterexample: `on_predict_start` overwrites the training
counter `total_nums` with `-1`, so a `batch_predict`/`single_predict`
call does not leave `total_nums` at its pre-call value (here 5). -/
theorem c9_counterexample :
    dictFind (on_predict_start_counters [("total_nums", FVal.fin 5)])
        "total_nums" = some (.fin (-1)) ∧
    dictFind ([("total_nums", FVal.fin 5)] : Counters) "total_nums"
        = some (.fin 5) ∧
    FVal.fin (-1) ≠ FVal.fin 5 := by
  refine ⟨?_, by decide, by decide⟩
  unfold on_predict_start_counters
  rw [dictFind_dictSet_self]

/-- C9 (amended): the pipeline's start/step hooks leave every counter
other than `vis_num` untouched, with two exceptions the source makes:
`on_val_start` setdefaults `epoch` (a no-op whenever `epoch` is already
present, as after any training) and `on_predict_start` additionally
resets `total_nums` to `-1`.  In particular `total_steps`,
`per_epoch_nums` and `check_nums` always keep their pre-call values. -/
theorem c9_pipeline_counter_frame (c : Counters) (k : String)
    (isVis : Bool) (bs : ℚ) (mvn : Option ℚ) :
    (k ≠ "vis_num" →
      dictFind (on_val_step_end_counters isVis bs mvn c) k = dictFind c k) ∧
    (k ≠ "vis_num" → k ≠ "epoch" →
      dictFind (on_val_start_counters c) k = dictFind c k) ∧
    ((dictFind c "epoch").isSome →
      dictFind (on_val_start_counters c) "epoch" = dictFind c "epoch") ∧
    (k ≠ "vis_num" → k ≠ "total_nums" →
      dictFind (on_predict_start_counters c) k = dictFind c k) := by
  refine ⟨fun hk => ?_, fun hk he => ?_, fun hs => ?_, fun hk ht => ?_⟩
  · unfold on_val_step_end_counters
    split
    · split
      · exact dictFind_dictSet_ne c "vis_num" k _ hk
      · rfl
    · rfl
  · unfold on_val_start_counters
    rw [dictFind_dictSetdefault_ne _ _ _ _ he,
      dictFind_dictSet_ne c "vis_num" k _ hk]
  · unfold on_val_start_counters
    have hs2 : (dictFind (dictSet c "vis_num" (.fin 0)) "epoch").isSome := by
      rw [dictFind_dictSet_ne c "vis_num" "epoch" _ (by decide)]
      exact hs
    rw [dictSetdefault_of_isSome _ _ _ hs2,
      dictFind_dictSet_ne c "vis_num" "epoch" _ (by decide)]
  · unfold on_predict_start_counters
    rw [dictFind_dictSet_ne _ "total_nums" k _ ht,
      dictFind_dictSet_ne c "vis_num" k _ hk]

theorem c9_pipeline_counter_frame_witness :
    ("total_steps" : String) ≠ "vis_num" ∧
    ("total_steps" : String) ≠ "epoch" ∧
    ("total_steps" : String) ≠ "total_nums" ∧
    (dictFind ([("epoch", FVal.fin 3), ("total_steps", FVal.fin 8)] : Counters)
      "epoch").isSome ∧
    dictFind (on_val_step_end_counters true 4 none
        [("epoch", FVal.fin 3), ("total_steps", FVal.fin 8)]) "total_steps"
      = dictFind ([("epoch", FVal.fin 3), ("total_steps", FVal.fin 8)] : Counters)
        "total_steps" ∧
    dictFind (on_val_start_counters
        [("epoch", FVal.fin 3), ("total_steps", FVal.fin 8)]) "total_steps"
      = dictFind ([("epoch", FVal.fin 3), ("total_steps", FVal.fin 8)] : Counters)
        "total_steps" ∧
    dictFind (on_val_start_counters
        [("epoch", FVal.fin 3), ("total_steps", FVal.fin 8)]) "epoch"
      = dictFind ([("epoch", FVal.fin 3), ("total_steps", FVal.fin 8)] : Counters)
        "epoch" ∧
    dictFind (on_predict_start_counters
        [("epoch", FVal.fin 3), ("total_steps", FVal.fin 8)]) "total_steps"
      = dictFind ([("epoch", FVal.fin 3), ("total_steps", FVal.fin 8)] : Counters)
        "total_steps" :=
  ⟨by decide, by decide, by decide, by decide,
    (c9_pipeline_counter_frame [("epoch", FVal.fin 3), ("total_steps", FVal.fin 8)]
      "total_steps" true 4 none).1 (by decide),
    (c9_pipeline_counter_frame [("epoch", FVal.fin 3), ("total_steps", FVal.fin 8)]
      "total_steps" true 4 none).2.1 (by decide) (by decide),
    (c9_pipeline_counter_frame [("epoch", FVal.fin 3), ("total_steps", FVal.fin 8)]
      "total_steps" true 4 none).2.2.1 (by decide),
    (c9_pipeline_counter_frame [("epoch", FVal.fin 3), ("total_steps", FVal.fin 8)]
      "total_steps" true 4 none).2.2.2 (by decide) (by decide)⟩

/-! ## `batch_predict` batching (C10) -/

/-- python list slice `l[a:b]` (for 0 ≤ a ≤ b). -/
def pySlice {α : Type} (a b : ℕ) (l : List α) : List α := (l.drop a).take (b - a)

/-- python `range(0, stop, step)` for `step > 0` (`step = 0` raises in
python and is unused here). -/
def pyRange (stop step : ℕ) : List ℕ :=
  (List.range ((stop + step - 1) / step)).map (fun j => j * step)

/-- The successive `batch_objs` arguments on which
`ModelHooks.batch_predict` (lines 645-653) invokes
`gen_predict_inputs` (and then `on_val_step`): the loop variable `i`
already advances in strides of `batch_size` over `range(0,
len(objs[0]), batch_size)`, and each iteration slices
`objs[i * batch_size : (i + 1) * batch_size]` — a slice of the tuple of
input lists, not of the objects within each list. -/
def batch_predict_calls {α : Type} (objs : List (List α)) (batchSize : ℕ) :
    List (List (List α)) :=
  (pyRange (objs.headD []).length batchSize).map
    (fun i => pySlice (i * batchSize) ((i + 1) * batchSize) objs)

/-- C10: with N = 2 input objects and `batch_size = 1`, the first
iteration hands `on_val_step` the entire 2-object input list (a batch
exceeding `batch_size`) and the second iteration hands it no input list
at all — the inputs are never partitioned into batches of at most
`batch_size` objects: the loop index is multiplied by `batch_size`
twice, and the slice is taken from the argument tuple. -/
theorem c10_batch_predict_misbatches :
    batch_predict_calls [[(10 : ℕ), 20]] 1 = [[[10, 20]], []] ∧
    (((batch_predict_calls [[(10 : ℕ), 20]] 1).headD []).headD []).length
      = 2 := by
  decide

end ModelProc
